import Mathlib

/-
  Verification development for the conversation-fetcher cleaning pipeline
  (scripts/py/v12_clean_rows.py).  The Python program is shallowly embedded:
  every stage of the pipeline (entry cleaning, grouping, the two
  deduplication passes and the final field stripping) is translated into an
  executable Lean function over explicit data, and the testable properties
  of the design are settled as theorems about those functions.
-/

namespace ConvFetch

/-- Whitespace class used by Python's str.strip, str.split and the regex
class backslash-s (the Unicode whitespace code points). -/
def isPySpace (c : Char) : Bool :=
  decide (c = ' ' ∨ c = '\t' ∨ c = '\n' ∨ c = '\r' ∨ c = '\x0b' ∨ c = '\x0c' ∨
    c = '\x1c' ∨ c = '\x1d' ∨ c = '\x1e' ∨ c = '\x1f' ∨ c = '\x85' ∨ c = '\xa0' ∨
    c = ' ' ∨ (' ' ≤ c ∧ c ≤ ' ') ∨ c = ' ' ∨ c = ' ' ∨
    c = ' ' ∨ c = ' ' ∨ c = '　')

/-- ASCII decimal digit, the regex class backslash-d on the inputs handled. -/
def isDigitA (c : Char) : Bool :=
  decide ('0' ≤ c ∧ c ≤ '9')

/-- The regex character class A-Z a-z. -/
def isAlphaA (c : Char) : Bool :=
  decide (('A' ≤ c ∧ c ≤ 'Z') ∨ ('a' ≤ c ∧ c ≤ 'z'))

/-- Line boundary characters recognised by Python's str.splitlines. -/
def isLineBreak (c : Char) : Bool :=
  decide (c = '\n' ∨ c = '\r' ∨ c = '\x0b' ∨ c = '\x0c' ∨ c = '\x1c' ∨
    c = '\x1d' ∨ c = '\x1e' ∨ c = '\x85' ∨ c = ' ' ∨ c = ' ')

/-- ASCII lower-casing of one character (str.lower on the character ranges
exercised by this program's vocabulary, which has no cased non-ASCII letters). -/
def lowerA (c : Char) : Char :=
  if 'A' ≤ c ∧ c ≤ 'Z' then Char.ofNat (c.toNat + 32) else c

/-- str.lower. -/
def pyLower (s : String) : String :=
  (s.toList.map lowerA).asString

/-- str.strip with no argument: drop leading and trailing whitespace. -/
def pyStripL (l : List Char) : List Char :=
  ((l.dropWhile isPySpace).reverse.dropWhile isPySpace).reverse

/-- str.strip on strings. -/
def pyStrip (s : String) : String :=
  (pyStripL s.toList).asString

/-- str.startswith. -/
def strStarts (s pre : String) : Bool :=
  decide (pre.toList <+: s.toList)

/-- The substring containment test `pat in s` of Python. -/
def strContains (s pat : String) : Bool :=
  decide (pat.toList <:+: s.toList)

/-- The slice `s[n:]` of Python (drop the first n code points). -/
def strDrop (s : String) (n : Nat) : String :=
  (s.toList.drop n).asString

/-- str.replace on character lists with explicit fuel (the recursion after a
match resumes past the matched occurrence, so the fuel of one character per
step keeps the recursion structural; the wrapper supplies enough fuel). -/
def pyReplaceFuel (pat rep : List Char) : Nat → List Char → List Char
  | _, [] => []
  | 0, l => l
  | fuel + 1, c :: cs =>
    if pat ≠ [] ∧ pat <+: (c :: cs) then
      rep ++ pyReplaceFuel pat rep fuel (cs.drop (pat.length - 1))
    else
      c :: pyReplaceFuel pat rep fuel cs

/-- str.replace on character lists: every non-overlapping occurrence of
pat is replaced by rep, scanning left to right. -/
def pyReplaceL (pat rep l : List Char) : List Char :=
  pyReplaceFuel pat rep l.length l

/-- str.replace on strings. -/
def pyReplace (s pat rep : String) : String :=
  (pyReplaceL pat.toList rep.toList s.toList).asString

/-- Count of the non-overlapping occurrences of pat, scanning left to right
with the same scheme as pyReplaceFuel. -/
def countOccFuel (pat : List Char) : Nat → List Char → Nat
  | _, [] => 0
  | 0, _ => 0
  | fuel + 1, c :: cs =>
    if pat ≠ [] ∧ pat <+: (c :: cs) then
      1 + countOccFuel pat fuel (cs.drop (pat.length - 1))
    else
      countOccFuel pat fuel cs

/-- Count of the non-overlapping occurrences of pat in a list. -/
def countOcc (pat l : List Char) : Nat :=
  countOccFuel pat l.length l

/-- str.splitlines on character lists. -/
def pySplitlinesL : List Char → List (List Char)
  | [] => []
  | '\r' :: '\n' :: rest => [] :: pySplitlinesL rest
  | c :: rest =>
    if isLineBreak c then
      [] :: pySplitlinesL rest
    else
      match pySplitlinesL rest with
      | [] => [[c]]
      | line :: lines => (c :: line) :: lines

/-- str.splitlines on strings. -/
def pySplitlines (s : String) : List String :=
  (pySplitlinesL s.toList).map List.asString

/-- str.split with no argument on character lists: split on whitespace runs,
dropping empty pieces. -/
def pySplitWsL : List Char → List (List Char)
  | [] => []
  | c :: rest =>
    if isPySpace c then pySplitWsL rest
    else
      match rest with
      | [] => [[c]]
      | d :: _ =>
        if isPySpace d then [c] :: pySplitWsL rest
        else
          match pySplitWsL rest with
          | [] => [[c]]
          | w :: ws => (c :: w) :: ws

/-- "sep".join for a newline separator: the join used to assemble message
content from its retained lines. -/
def joinNL : List String → String
  | [] => ""
  | [x] => x
  | x :: y :: rest => x ++ "\n" ++ joinNL (y :: rest)

/-- " ".join over the pieces of str.split, as used by the dedup text
normaliser. -/
def joinSpace : List String → String
  | [] => ""
  | [x] => x
  | x :: y :: rest => x ++ " " ++ joinSpace (y :: rest)

/-
  Embedding of the two anchored regular expressions of v12_clean_rows.py.
  A matcher for one regex component maps the unconsumed character list to
  the list of every possible remainder; components are composed with bind,
  so the whole-pattern test asks whether some path consumes the line.  The
  patterns are anchored left by re.match and right by the dollar anchor,
  which accepts either the end of the string or a single trailing newline.
-/

/-- Remainders after consuming between lo and hi characters of the class p
(hi = none means unbounded, the Kleene-style upper end). -/
def classRun (p : Char → Bool) (lo : Nat) (hi : Option Nat) (l : List Char) :
    List (List Char) :=
  let run := (l.takeWhile p).length
  let top := match hi with
    | some h => min run h
    | none => run
  if lo ≤ top then (List.range (top + 1 - lo)).map (fun i => l.drop (lo + i)) else []

/-- Remainders after a case-insensitive literal (re.IGNORECASE). -/
def litCI (lit : String) (l : List Char) : List (List Char) :=
  if lit.toList.map lowerA <+: l.map lowerA then [l.drop lit.toList.length] else []

/-- Remainders after one literal character. -/
def litChar (c : Char) : List Char → List (List Char)
  | [] => []
  | d :: rest => if d = c then [rest] else []

/-- An optional group: skip it, or take any of its matches. -/
def optG (f : List Char → List (List Char)) (l : List Char) : List (List Char) :=
  l :: f l

/-- The group of one of A or P followed by M, case-insensitively. -/
def ampmG : List Char → List (List Char)
  | a :: m :: rest =>
    if (a = 'A' ∨ a = 'a' ∨ a = 'P' ∨ a = 'p') ∧ (m = 'M' ∨ m = 'm') then [rest] else []
  | _ => []

/-- The leading day alternative of TIMESTAMP_REGEX: one or two digits, spaces
and a letter run; or the literals Today and Yesterday; or a run of at least
three letters. -/
def tsDayAlt (l : List Char) : List (List Char) :=
  ((classRun isDigitA 1 (some 2) l).flatMap fun r =>
    (classRun isPySpace 1 none r).flatMap fun r2 =>
      classRun isAlphaA 1 none r2) ++
  litCI "Today" l ++ litCI "Yesterday" l ++ classRun isAlphaA 3 none l

/-- The rest of TIMESTAMP_REGEX after the day group: an optional year, an
optional comma, mandatory spaces, an optional at, the HH:MM time and an
optional AM or PM marker. -/
def tsAfterDay (r : List Char) : List (List Char) :=
  (optG (fun x => (classRun isPySpace 1 none x).flatMap (classRun isDigitA 4 (some 4))) r).flatMap
    fun r2 =>
  (optG (litChar ',') r2).flatMap fun r3 =>
  (classRun isPySpace 1 none r3).flatMap fun r4 =>
  (optG (fun x => (litCI "at" x).flatMap (classRun isPySpace 1 none)) r4).flatMap fun r5 =>
  (classRun isDigitA 1 (some 2) r5).flatMap fun r6 =>
  (litChar ':' r6).flatMap fun r7 =>
  (classRun isDigitA 2 (some 2) r7).flatMap fun r8 =>
  optG (fun x => (classRun isPySpace 0 (some 1) x).flatMap ampmG) r8

/-- TIMESTAMP_REGEX.match as a whole-line test (is_timestamp in the source). -/
def is_timestamp (s : String) : Bool :=
  ((tsDayAlt s.toList).flatMap tsAfterDay).any fun r => r.isEmpty || r == ['\n']

/-- TIME_ONLY_REGEX.match: one or two digits, a colon, exactly two digits. -/
def time_only (s : String) : Bool :=
  (classRun isDigitA 1 (some 2) s.toList).any fun r1 =>
    (litChar ':' r1).any fun r2 =>
      (classRun isDigitA 2 (some 2) r2).any fun r3 => r3.isEmpty || r3 == ['\n']

/-
  Constants of v12_clean_rows.py.
-/

/-- The configured partner display name (PARTNER_NAME). -/
def PARTNER_NAME : String := "Bạn nhỏ Xoàii 🥭"

/-- IGNORE_EXACT: control strings discarded on exact match. -/
def IGNORE_EXACT : List String :=
  ["Enter", "Seen", "Sent", "You sent", "You", "Media", "Double tap to like",
   PARTNER_NAME]

/-- IGNORE_PREFIXES: reply and system-action markers discarded on
case-insensitive leading match. -/
def IGNORE_PREFIXES : List String :=
  ["You replied to", "You reacted to", "You unsent", "You removed",
   "You changed", "Partner replied to", "Bạn nhỏ Xoàii 🥭 replied to"]

/-- IGNORE_CONTAINS: discarded on case-insensitive substring match. -/
def IGNORE_CONTAINS : List String :=
  ["replied to you", "Original message:"]

/-- META_NOISE_CONTAINS: platform noise discarded on case-insensitive
substring match. -/
def META_NOISE_CONTAINS : List String :=
  ["Meta AI", "Use the Messenger mobile app to see it"]

/-- NOISE_ATTACHMENT_THRESHOLD. -/
def NOISE_ATTACHMENT_THRESHOLD : Nat := 25

/-- The emoji asset URL marker tested by substring containment. -/
def EMOJI_MARK : String := "static.xx.fbcdn.net/images/emoji"

/-
  Attachment URL handling.
-/

/-- normalize_url: strip surrounding whitespace, and drop the query string
only on static emoji assets. -/
def normalize_url (url : String) : String :=
  let u := pyStrip url
  if strContains u EMOJI_MARK then (u.toList.takeWhile (fun c => c ≠ '?')).asString
  else u

/-- noise_key: the looser canon used only for noise counting, dropping the
query string of every URL. -/
def noise_key (url : String) : String :=
  (url.toList.takeWhile (fun c => c ≠ '?')).asString

/-- The three scheme rules shared by the counter and the filter: not a blob
URL, not an emoji asset, and an HTTP(S) URL. -/
def candidate_url (url : String) : Bool :=
  !strStarts url "blob:" && !strContains url EMOJI_MARK && strStarts url "http"

/-
  Data model.  RawCaptureEntry is one scraped row as read from the input
  JSON (sender, content, media_urls, and the batch, part and index
  provenance).  Message adds the internal underscore-prefixed source fields
  that clean_entry attaches; FinalMessage is a Message after
  strip_internal_fields.
-/

structure RawEntry where
  sender : String
  content : String
  media_urls : List String
  batch : String
  part : Nat
  index : Nat
deriving DecidableEq, Repr

structure Message where
  timestamp : String
  sender : String
  content : String
  type : String
  attachments : List String
  sourceBatch : String
  sourcePart : Nat
  sourceIndex : Nat
deriving DecidableEq, Repr

structure FinalMessage where
  timestamp : String
  sender : String
  content : String
  type : String
  attachments : List String
deriving DecidableEq, Repr

/-- collect_attachment_counts, read off at one key: how many media_urls
occurrences across the corpus are candidates whose noise_key equals k. -/
def collect_count (rows : List RawEntry) (k : String) : Nat :=
  rows.foldl
    (fun n e => n + (e.media_urls.filter fun u => candidate_url u && (noise_key u == k)).length)
    0

/-- Membership in the noise set built in main: a key whose count reaches
NOISE_ATTACHMENT_THRESHOLD. -/
def noise_mem (rows : List RawEntry) (u : String) : Bool :=
  decide (NOISE_ATTACHMENT_THRESHOLD ≤ collect_count rows u)

/-- The loop body of filter_attachments, threading the seen set. -/
def filter_attachments_go (noise : String → Bool) (seen : List String) :
    List String → List String
  | [] => []
  | url :: rest =>
    if candidate_url url then
      let canon := normalize_url url
      if noise canon ∨ canon ∈ seen then filter_attachments_go noise seen rest
      else canon :: filter_attachments_go noise (canon :: seen) rest
    else filter_attachments_go noise seen rest

/-- filter_attachments: scheme rules, the noise set, and per-entry
deduplication, preserving order. -/
def filter_attachments (urls : List String) (noise : String → Bool) : List String :=
  filter_attachments_go noise [] urls

/-
  Entry Cleaner (clean_entry and the loop over raw rows in main).
-/

/-- strip_leading_label: remove a duplicated leading You sent, You or
partner-name label, taking the first listed match and stripping the rest. -/
def strip_leading_label (line : String) : String :=
  if strStarts line "You sent" then pyStrip (strDrop line ("You sent".toList.length))
  else if strStarts line "You" then pyStrip (strDrop line ("You".toList.length))
  else if strStarts line PARTNER_NAME then pyStrip (strDrop line (PARTNER_NAME.toList.length))
  else line

/-- The vocabulary tests of the line classifier, in the order of the source:
exact match, lowered leading match, lowered containment, platform noise. -/
def line_ignored (line : String) : Bool :=
  let lower_line := pyLower line
  decide (line ∈ IGNORE_EXACT) ||
  IGNORE_PREFIXES.any (fun p => strStarts lower_line (pyLower p)) ||
  IGNORE_CONTAINS.any (fun t => strContains lower_line (pyLower t)) ||
  META_NOISE_CONTAINS.any (fun t => strContains lower_line (pyLower t))

/-- One line survives the classifier as content when it is neither a
timestamp label, nor a bare time, nor in the noise vocabulary. -/
def lineIsContent (line : String) : Bool :=
  !is_timestamp line && !time_only line && !line_ignored line

/-- The per-line loop of clean_entry: strip labels, drop empty lines, let a
timestamp label update the running timestamp, discard noise, retain content. -/
def cleanLinesGo (ts : Option String) : List String → Option String × List String
  | [] => (ts, [])
  | raw :: rest =>
    let line := strip_leading_label (pyStrip raw)
    if line = "" then cleanLinesGo ts rest
    else if is_timestamp line then cleanLinesGo (some line) rest
    else if time_only line then cleanLinesGo ts rest
    else if line_ignored line then cleanLinesGo ts rest
    else
      let r := cleanLinesGo ts rest
      (r.1, line :: r.2)

/-- clean_entry: translate the Enter placeholder to a newline, split into
lines, classify each line, filter the attachments, and emit at most one
Message, threading the running timestamp back to the caller. -/
def clean_entry (e : RawEntry) (current_ts : Option String) (noise : String → Bool) :
    Option String × Option Message :=
  let r := cleanLinesGo current_ts (pySplitlines (pyReplace e.content "Enter" "\n"))
  let attachments := filter_attachments e.media_urls noise
  if r.2 = [] ∧ attachments = [] then (r.1, none)
  else
    (r.1, some
      { timestamp := r.1.getD "Unknown Time"
        sender := if e.sender = "Partner" then PARTNER_NAME else e.sender
        content := joinNL r.2
        type := if r.2 = [] then "media" else "text"
        attachments := attachments
        sourceBatch := e.batch
        sourcePart := e.part
        sourceIndex := e.index })

/-- The cleaning loop of main: fold clean_entry over the raw rows, threading
the running timestamp, and keep the emitted messages in order. -/
def clean_rows (noise : String → Bool) : Option String → List RawEntry → List Message
  | _, [] => []
  | ts, e :: rest =>
    let r := clean_entry e ts noise
    match r.2 with
    | none => clean_rows noise r.1 rest
    | some m => m :: clean_rows noise r.1 rest

/-
  Grouper (group_messages).
-/

/-- Append the attachments of a newcomer that are not yet present, keeping
first-seen order (the existing-set loop shared by the grouper and the
capture-artifact dedup). -/
def addNewUrls (acc : List String) : List String → List String
  | [] => acc
  | u :: us => if u ∈ acc then addNewUrls acc us else addNewUrls (acc ++ [u]) us

/-- Merge one same-sender message into the current block: concatenate
non-empty content with a newline, union the attachments, and upgrade an
Unknown Time timestamp to a concrete one. -/
def mergeInto (last msg : Message) : Message :=
  { last with
    content :=
      if msg.content ≠ "" then
        if last.content ≠ "" then last.content ++ "\n" ++ msg.content else msg.content
      else last.content
    attachments := addNewUrls last.attachments msg.attachments
    timestamp :=
      if last.timestamp = "Unknown Time" ∧ msg.timestamp ≠ "Unknown Time" then msg.timestamp
      else last.timestamp }

/-- The walk of group_messages with the block under construction: a message
from the same sender is merged into it, a sender change closes it. -/
def groupGo (cur : Message) : List Message → List Message
  | [] => [cur]
  | m :: rest =>
    if m.sender = cur.sender then groupGo (mergeInto cur m) rest
    else cur :: groupGo m rest

/-- group_messages: merge consecutive same-sender messages into blocks. -/
def group_messages : List Message → List Message
  | [] => []
  | m :: rest => groupGo m rest

/-
  Deduplicator stage one (dedupe_consecutive).
-/

/-- Insert one string into an already sorted list (ascending). -/
def insertStr (x : String) : List String → List String
  | [] => [x]
  | y :: ys => if y < x then y :: insertStr x ys else x :: y :: ys

/-- Insertion sort over strings: the canonical form that Python's
sorted(...) comparison of attachment lists reduces to. -/
def sortStrs : List String → List String
  | [] => []
  | x :: xs => insertStr x (sortStrs xs)

/-- The equality tested by dedupe_consecutive: same sender, same content and
the same attachment multiset (order-independent via sorting). -/
def tripleEqM (m prev : Message) : Bool :=
  decide (m.sender = prev.sender ∧ m.content = prev.content ∧
    sortStrs m.attachments = sortStrs prev.attachments)

/-- The loop of dedupe_consecutive with the last kept message. -/
def ddGo (prev : Message) : List Message → List Message
  | [] => []
  | m :: rest => if tripleEqM m prev then ddGo prev rest else m :: ddGo m rest

/-- dedupe_consecutive: drop a message identical to the immediately
preceding kept one. -/
def dedupe_consecutive : List Message → List Message
  | [] => []
  | m :: rest => m :: ddGo m rest

/-
  Deduplicator stage two (dedupe_capture_artifacts).
-/

/-- norm_text: strip the partner display name from the text, strip
whitespace, and collapse internal whitespace runs to single spaces. -/
def norm_text (t : String) : String :=
  joinSpace ((pySplitWsL (pyStrip (pyReplace t PARTNER_NAME "")).toList).map List.asString)

/-- The identity under which the capture-artifact dedup tracks a message:
its source batch together with the (sender, normalized content) key.  The
source keeps a per-batch table of keys; one lookup table over the combined
triple is the same map. -/
def bkey (m : Message) : String × String × String :=
  (m.sourceBatch, m.sender, norm_text m.content)

/-- Merging the attachments of a dropped capture artifact into the kept
occurrence (the attachment loop of dedupe_capture_artifacts). -/
def mergeAttsMsg (prev : Message) (atts : List String) : Message :=
  { prev with attachments := addNewUrls prev.attachments atts }

/-- Replace the element at one position, if any. -/
def modifyAt : List Message → Nat → (Message → Message) → List Message
  | [], _, _ => []
  | x :: xs, 0, f => f x :: xs
  | x :: xs, n + 1, f => x :: modifyAt xs n f

/-- Lookup in the association list that mirrors the batch_seen tables: the
tracked key maps to the index of its first occurrence in the output. -/
def lookupIdx (k : String × String × String) :
    List ((String × String × String) × Nat) → Option Nat
  | [] => none
  | (k2, i) :: rest => if k2 = k then some i else lookupIdx k rest

/-- The mutable state of dedupe_capture_artifacts: the out list, and the
batch_seen tables flattened to one association from (batch, sender,
normalized content) to the position of the kept message in out. -/
structure DCAState where
  out : List Message
  seen : List ((String × String × String) × Nat)

/-- One iteration of the dedupe_capture_artifacts loop: a key already seen
in its batch merges the newcomer's attachments into the kept message (the
Python code mutates the shared dict, here the out entry is updated in
place); an unseen key appends the message and records it. -/
def dcaStep (st : DCAState) (msg : Message) : DCAState :=
  match lookupIdx (bkey msg) st.seen with
  | some i => { st with out := modifyAt st.out i (fun prev => mergeAttsMsg prev msg.attachments) }
  | none => { out := st.out ++ [msg], seen := (bkey msg, st.out.length) :: st.seen }

/-- dedupe_capture_artifacts: remove scroll-overlap duplicates within one
batch while preserving repeats across batches. -/
def dedupe_capture_artifacts (messages : List Message) : List Message :=
  (messages.foldl dcaStep ⟨[], []⟩).out

/-- The index of the first message in a list carrying the given tracked key. -/
def findKeyIdx (k : String × String × String) : List Message → Option Nat
  | [] => none
  | m :: rest => if bkey m = k then some 0 else (findKeyIdx k rest).map (· + 1)

/-- Reference form of the dedupe_capture_artifacts loop that carries only
the out list: a newcomer whose key is already present merges into the first
(and only) occurrence of that key.  Proven to agree with the indexed fold. -/
def dcaRef (pre : List Message) : List Message → List Message
  | [] => pre
  | m :: ms =>
    match findKeyIdx (bkey m) pre with
    | some i => dcaRef (modifyAt pre i (fun prev => mergeAttsMsg prev m.attachments)) ms
    | none => dcaRef (pre ++ [m]) ms

/-
  Final output (strip_internal_fields and the pipeline composition of main).
-/

/-- strip_internal_fields: drop the underscore-prefixed source fields. -/
def strip_internal_fields (msgs : List Message) : List FinalMessage :=
  msgs.map fun m => ⟨m.timestamp, m.sender, m.content, m.type, m.attachments⟩

/-- The pipeline of main after loading: build the noise set from the raw
rows, clean, group, collapse consecutive duplicates, remove capture
artifacts, and strip the internal fields. -/
def run_pipeline (rows : List RawEntry) : List FinalMessage :=
  strip_internal_fields
    (dedupe_capture_artifacts
      (dedupe_consecutive
        (group_messages
          (clean_rows (noise_mem rows) none rows))))

/-
  Derived vocabulary for the properties.
-/

/-- The data-model invariant on internal messages: non-empty content or
non-empty attachments. -/
def nonEmptyM (m : Message) : Prop :=
  m.content ≠ "" ∨ m.attachments ≠ []

/-- The data-model invariant on final messages. -/
def nonEmptyF (m : FinalMessage) : Prop :=
  m.content ≠ "" ∨ m.attachments ≠ []

/-- The dedupe_consecutive identity on final messages. -/
def tripleEqF (a b : FinalMessage) : Bool :=
  decide (a.sender = b.sender ∧ a.content = b.content ∧
    sortStrs a.attachments = sortStrs b.attachments)

/-- No two adjacent internal messages agree on (sender, content,
attachment multiset). -/
def noAdjDupM : List Message → Bool
  | a :: b :: rest => !tripleEqM a b && noAdjDupM (b :: rest)
  | _ => true

/-- No two adjacent final messages agree on (sender, content,
attachment multiset). -/
def noAdjDupF : List FinalMessage → Bool
  | a :: b :: rest => !tripleEqF a b && noAdjDupF (b :: rest)
  | _ => true

/-- Adjacent messages always change sender. -/
def distinctAdjSenders : List Message → Bool
  | a :: b :: rest => !(a.sender == b.sender) && distinctAdjSenders (b :: rest)
  | _ => true

/-- The sublist of the messages carrying one tracked key. -/
def filterKey (k : String × String × String) : List Message → List Message
  | [] => []
  | m :: ms => if bkey m = k then m :: filterKey k ms else filterKey k ms

/-- How often one URL occurs verbatim in the corpus as a candidate
attachment (passing the scheme rules of the noise counter). -/
def url_occurrences (rows : List RawEntry) (u : String) : Nat :=
  rows.foldl
    (fun n e => n + (e.media_urls.filter fun v => candidate_url v && (v == u)).length)
    0

/-- The running-timestamp update of one classified line. -/
def tsUpd (a : Option String) (line : String) : Option String :=
  if is_timestamp line then some line else a

/-- Raw lines after label stripping, with empties removed: the sequence of
lines the classifying loop of clean_entry actually inspects. -/
def procLines (raws : List String) : List String :=
  (raws.map (fun raw => strip_leading_label (pyStrip raw))).filter (fun l => decide (l ≠ ""))

/-- The lines of one raw entry after Enter translation, splitting, label
stripping and the removal of empties, exactly as clean_entry walks them. -/
def entryLines (e : RawEntry) : List String :=
  procLines (pySplitlines (pyReplace e.content "Enter" "\n"))

/-- The lines of one raw entry that the classifier retains as content. -/
def retainedLines (e : RawEntry) : List String :=
  (entryLines e).filter lineIsContent

/-
  Concrete inputs used to settle the claims.
-/

/-- The end-to-end scenario of the design document: batch A holds a
timestamp row and two hello rows, batch B one more hello row. -/
def c1rows : List RawEntry :=
  [⟨"Partner", "18 Dec 2025, 16:19", [], "A", 0, 0⟩,
   ⟨"Partner", "hello", [], "A", 0, 1⟩,
   ⟨"Partner", "hello", [], "A", 0, 2⟩,
   ⟨"Partner", "hello", [], "B", 0, 0⟩]

/-- One sender repeating one text across two batches with nothing between. -/
def c2rows : List RawEntry :=
  [⟨"Alice", "ping", [], "A", 0, 0⟩, ⟨"Alice", "ping", [], "B", 0, 0⟩]

/-- A corpus in which one candidate URL occurs twenty-five times. -/
def c3rows : List RawEntry :=
  List.replicate 25 ⟨"Alice", "hi", ["http://a.com/x?1"], "A", 0, 0⟩

/-- The URL of the noise-suppression corpus. -/
def c3url : String := "http://a.com/x?1"

/-- Alternating senders in batch A with a batch-B repeat of the second
speaker's line: the capture-artifact pass deletes the separating block. -/
def c4rows : List RawEntry :=
  [⟨"Bob", "y", [], "A", 0, 0⟩, ⟨"Alice", "x", [], "A", 0, 1⟩,
   ⟨"Bob", "y", [], "A", 0, 2⟩, ⟨"Alice", "x", [], "B", 0, 0⟩]

/-- One sender repeating one text twice inside batch A, adjacently. -/
def c6rows : List RawEntry :=
  [⟨"Alice", "x", [], "A", 0, 0⟩, ⟨"Alice", "x", [], "A", 0, 1⟩]

/-
  Lemmas about the consecutive-duplicate collapse and the grouper.
-/

theorem tripleEqM_comm (a b : Message) : tripleEqM a b = tripleEqM b a := by
  simp only [tripleEqM]
  refine decide_eq_decide.mpr ?_
  constructor <;> rintro ⟨h1, h2, h3⟩ <;> exact ⟨h1.symm, h2.symm, h3.symm⟩

theorem noAdjDupM_ddGo (rest : List Message) :
    ∀ prev : Message, noAdjDupM (prev :: ddGo prev rest) = true := by
  induction rest with
  | nil => intro prev; rfl
  | cons m rest ih =>
    intro prev
    by_cases h : tripleEqM m prev = true
    · simp only [ddGo, h, if_true]
      exact ih prev
    · have hf : tripleEqM m prev = false := by
        cases hv : tripleEqM m prev with
        | true => exact absurd hv h
        | false => rfl
      simp only [ddGo, hf, Bool.false_eq_true, if_false]
      have hpm : tripleEqM prev m = false := by rw [tripleEqM_comm]; exact hf
      simp only [noAdjDupM, hpm, Bool.not_false, Bool.true_and]
      exact ih m

theorem noAdjDupM_dedupe_consecutive (l : List Message) :
    noAdjDupM (dedupe_consecutive l) = true := by
  cases l with
  | nil => rfl
  | cons m rest => exact noAdjDupM_ddGo rest m

theorem mergeInto_sender (cur m : Message) : (mergeInto cur m).sender = cur.sender := rfl

theorem groupGo_head (l : List Message) :
    ∀ cur : Message, ∃ hd t, groupGo cur l = hd :: t ∧ hd.sender = cur.sender := by
  induction l with
  | nil => intro cur; exact ⟨cur, [], rfl, rfl⟩
  | cons m rest ih =>
    intro cur
    by_cases h : m.sender = cur.sender
    · obtain ⟨hd, t, heq, hs⟩ := ih (mergeInto cur m)
      exact ⟨hd, t, by simp only [groupGo, if_pos h]; exact heq,
        by rw [hs, mergeInto_sender]⟩
    · exact ⟨cur, groupGo m rest, by simp only [groupGo, if_neg h], rfl⟩

theorem distinctAdjSenders_groupGo (l : List Message) :
    ∀ cur : Message, distinctAdjSenders (groupGo cur l) = true := by
  induction l with
  | nil => intro cur; rfl
  | cons m rest ih =>
    intro cur
    by_cases h : m.sender = cur.sender
    · simp only [groupGo, if_pos h]
      exact ih (mergeInto cur m)
    · simp only [groupGo, if_neg h]
      obtain ⟨hd, t, heq, hs⟩ := groupGo_head rest m
      rw [heq]
      simp only [distinctAdjSenders]
      have hne : (cur.sender == hd.sender) = false := by
        refine beq_eq_false_iff_ne.mpr ?_
        rw [hs]
        exact fun hc => h hc.symm
      rw [hne]
      have := ih m
      rw [heq] at this
      simp only [this, Bool.not_false, Bool.true_and]

theorem distinctAdjSenders_group_messages (msgs : List Message) :
    distinctAdjSenders (group_messages msgs) = true := by
  cases msgs with
  | nil => rfl
  | cons m rest => exact distinctAdjSenders_groupGo rest m

theorem ddGo_of_distinctAdjSenders (rest : List Message) :
    ∀ prev : Message, distinctAdjSenders (prev :: rest) = true → ddGo prev rest = rest := by
  induction rest with
  | nil => intro prev _; rfl
  | cons m rest ih =>
    intro prev hadj
    simp only [distinctAdjSenders, Bool.and_eq_true, Bool.not_eq_true'] at hadj
    have hne : m.sender ≠ prev.sender := by
      intro hc
      have := beq_eq_false_iff_ne.mp hadj.1
      exact this hc.symm
    have hf : tripleEqM m prev = false := by
      simp only [tripleEqM, decide_eq_false_iff_not]
      rintro ⟨h1, -, -⟩
      exact hne h1
    simp only [ddGo, hf, Bool.false_eq_true, if_false]
    rw [ih m hadj.2]

theorem dedupe_consecutive_of_distinctAdjSenders (l : List Message)
    (h : distinctAdjSenders l = true) : dedupe_consecutive l = l := by
  cases l with
  | nil => rfl
  | cons m rest =>
    simp only [dedupe_consecutive]
    rw [ddGo_of_distinctAdjSenders rest m h]

/-
  Lemmas about the entry cleaner.
-/

/-- The single classifying pass of clean_entry decomposes into a timestamp
fold and a content filter over the stripped non-empty lines. -/
theorem cleanLinesGo_eq (raws : List String) : ∀ ts : Option String,
    cleanLinesGo ts raws =
      ((procLines raws).foldl tsUpd ts, (procLines raws).filter lineIsContent) := by
  induction raws with
  | nil => intro ts; rfl
  | cons raw rest ih =>
    intro ts
    simp only [cleanLinesGo]
    set L := strip_leading_label (pyStrip raw) with hL
    by_cases h0 : L = ""
    · have hskip : procLines (raw :: rest) = procLines rest := by
        unfold procLines
        rw [List.map_cons, ← hL]
        simp [h0]
      rw [hskip, if_pos h0]
      exact ih ts
    · have hcons : procLines (raw :: rest) = L :: procLines rest := by
        unfold procLines
        rw [List.map_cons, ← hL]
        simp [h0]
      rw [hcons, if_neg h0, List.foldl_cons]
      by_cases h1 : is_timestamp L = true
      · have hupd : tsUpd ts L = some L := by simp [tsUpd, h1]
        have hcont : lineIsContent L = false := by simp [lineIsContent, h1]
        rw [if_pos h1, hupd, List.filter_cons]
        simp only [hcont, Bool.false_eq_true, if_false]
        exact ih (some L)
      · have h1f : is_timestamp L = false := by revert h1; cases is_timestamp L <;> simp
        have hupd : tsUpd ts L = ts := by simp [tsUpd, h1f]
        rw [if_neg h1, hupd]
        by_cases h2 : time_only L = true
        · have hcont : lineIsContent L = false := by simp [lineIsContent, h2]
          rw [if_pos h2, List.filter_cons]
          simp only [hcont, Bool.false_eq_true, if_false]
          exact ih ts
        · have h2f : time_only L = false := by revert h2; cases time_only L <;> simp
          rw [if_neg h2]
          by_cases h3 : line_ignored L = true
          · have hcont : lineIsContent L = false := by simp [lineIsContent, h3]
            rw [if_pos h3, List.filter_cons]
            simp only [hcont, Bool.false_eq_true, if_false]
            exact ih ts
          · have h3f : line_ignored L = false := by revert h3; cases line_ignored L <;> simp
            have hcont : lineIsContent L = true := by simp [lineIsContent, h1f, h2f, h3f]
            rw [if_neg h3, List.filter_cons]
            simp only [hcont, if_true]
            rw [ih ts]

/-
  The non-empty invariant through the stages.
-/

theorem addNewUrls_exists_append (a : List String) :
    ∀ l : List String, ∃ t, addNewUrls l a = l ++ t := by
  induction a with
  | nil => intro l; exact ⟨[], (List.append_nil l).symm⟩
  | cons u us ih =>
    intro l
    by_cases h : u ∈ l
    · simpa only [addNewUrls, if_pos h] using ih l
    · obtain ⟨t, ht⟩ := ih (l ++ [u])
      exact ⟨[u] ++ t, by simp only [addNewUrls, if_neg h, ht, List.append_assoc]⟩

theorem addNewUrls_ne_nil (a l : List String) (h : l ≠ []) : addNewUrls l a ≠ [] := by
  obtain ⟨t, ht⟩ := addNewUrls_exists_append a l
  rw [ht]
  intro hc
  exact h (List.append_eq_nil.mp hc).1

theorem append_nl_ne_empty (a b : String) : a ++ "\n" ++ b ≠ "" := by
  intro h
  have hlen := congrArg String.length h
  have h1 : ("\n" : String).length = 1 := rfl
  have h0 : ("" : String).length = 0 := rfl
  simp only [String.length_append, h1, h0] at hlen
  omega

theorem joinNL_ne_empty (x : String) (ls : List String) (hx : x ≠ "") :
    joinNL (x :: ls) ≠ "" := by
  cases ls with
  | nil => exact hx
  | cons y rest => exact append_nl_ne_empty x (joinNL (y :: rest))

theorem procLines_mem_ne (raws : List String) (l : String) (h : l ∈ procLines raws) :
    l ≠ "" := by
  have := List.of_mem_filter h
  simpa using this

theorem clean_entry_some_nonEmpty (e : RawEntry) (ts : Option String)
    (ns : String → Bool) (m : Message) (h : (clean_entry e ts ns).2 = some m) :
    nonEmptyM m := by
  unfold clean_entry at h
  rw [cleanLinesGo_eq] at h
  set P := procLines (pySplitlines (pyReplace e.content "Enter" "\n")) with hP
  by_cases hc : P.filter lineIsContent = [] ∧ filter_attachments e.media_urls ns = []
  · rw [if_pos hc] at h
    exact absurd h (by simp)
  · rw [if_neg hc] at h
    simp only [Option.some.injEq] at h
    cases hfl : P.filter lineIsContent with
    | nil =>
      have hatt : filter_attachments e.media_urls ns ≠ [] := by
        intro hn; exact hc ⟨hfl, hn⟩
      right
      rw [← h]
      exact hatt
    | cons x xs =>
      left
      rw [← h]
      simp only
      rw [hfl]
      refine joinNL_ne_empty x xs ?_
      refine procLines_mem_ne (pySplitlines (pyReplace e.content "Enter" "\n")) x ?_
      have hx : x ∈ P.filter lineIsContent := by rw [hfl]; exact List.mem_cons_self x xs
      have hxP : x ∈ P := List.mem_of_mem_filter hx
      rw [hP] at hxP
      exact hxP

theorem clean_rows_cons (ns : String → Bool) (ts : Option String) (e : RawEntry)
    (rest : List RawEntry) :
    clean_rows ns ts (e :: rest) =
      match (clean_entry e ts ns).2 with
      | none => clean_rows ns (clean_entry e ts ns).1 rest
      | some m => m :: clean_rows ns (clean_entry e ts ns).1 rest := rfl

theorem clean_rows_mem_nonEmpty (ns : String → Bool) (rows : List RawEntry) :
    ∀ (ts : Option String) (m : Message), m ∈ clean_rows ns ts rows → nonEmptyM m := by
  induction rows with
  | nil => intro ts m hm; simp [clean_rows] at hm
  | cons e rest ih =>
    intro ts m hm
    rw [clean_rows_cons] at hm
    cases he : (clean_entry e ts ns).2 with
    | none =>
      rw [he] at hm
      exact ih _ m hm
    | some m2 =>
      rw [he] at hm
      simp only [List.mem_cons] at hm
      cases hm with
      | inl h => exact h ▸ clean_entry_some_nonEmpty e ts ns m2 he
      | inr h => exact ih _ m h

theorem mergeInto_nonEmpty (cur m : Message) (h : nonEmptyM cur) :
    nonEmptyM (mergeInto cur m) := by
  cases h with
  | inl hcont =>
    left
    simp only [mergeInto]
    by_cases hm : m.content ≠ ""
    · rw [if_pos hm, if_pos hcont]
      exact append_nl_ne_empty cur.content m.content
    · rw [if_neg hm]
      exact hcont
  | inr hatt =>
    right
    simp only [mergeInto]
    exact addNewUrls_ne_nil m.attachments cur.attachments hatt

theorem groupGo_mem_nonEmpty (l : List Message) :
    ∀ (cur : Message), nonEmptyM cur → (∀ x ∈ l, nonEmptyM x) →
      ∀ m ∈ groupGo cur l, nonEmptyM m := by
  induction l with
  | nil =>
    intro cur hcur _ m hm
    simp only [groupGo, List.mem_singleton] at hm
    exact hm ▸ hcur
  | cons x rest ih =>
    intro cur hcur hall m hm
    by_cases hs : x.sender = cur.sender
    · simp only [groupGo, if_pos hs] at hm
      exact ih (mergeInto cur x) (mergeInto_nonEmpty cur x hcur)
        (fun y hy => hall y (List.mem_cons_of_mem x hy)) m hm
    · simp only [groupGo, if_neg hs, List.mem_cons] at hm
      cases hm with
      | inl h => exact h ▸ hcur
      | inr h =>
        exact ih x (hall x (List.mem_cons_self x rest))
          (fun y hy => hall y (List.mem_cons_of_mem x hy)) m h

theorem group_messages_mem_nonEmpty (msgs : List Message)
    (hall : ∀ x ∈ msgs, nonEmptyM x) : ∀ m ∈ group_messages msgs, nonEmptyM m := by
  cases msgs with
  | nil => intro m hm; simp [group_messages] at hm
  | cons x rest =>
    exact groupGo_mem_nonEmpty rest x (hall x (List.mem_cons_self x rest))
      (fun y hy => hall y (List.mem_cons_of_mem x hy))

theorem ddGo_subset (l : List Message) :
    ∀ (prev m : Message), m ∈ ddGo prev l → m ∈ l := by
  induction l with
  | nil => intro prev m hm; simp [ddGo] at hm
  | cons x rest ih =>
    intro prev m hm
    by_cases h : tripleEqM x prev = true
    · simp only [ddGo, h, if_true] at hm
      exact List.mem_cons_of_mem x (ih prev m hm)
    · have hf : tripleEqM x prev = false := by revert h; cases tripleEqM x prev <;> simp
      simp only [ddGo, hf, Bool.false_eq_true, if_false, List.mem_cons] at hm
      cases hm with
      | inl he => exact he ▸ List.mem_cons_self x rest
      | inr ht => exact List.mem_cons_of_mem x (ih x m ht)

theorem dedupe_consecutive_subset (l : List Message) (m : Message)
    (hm : m ∈ dedupe_consecutive l) : m ∈ l := by
  cases l with
  | nil => simp [dedupe_consecutive] at hm
  | cons x rest =>
    simp only [dedupe_consecutive, List.mem_cons] at hm
    cases hm with
    | inl he => exact he ▸ List.mem_cons_self x rest
    | inr ht => exact List.mem_cons_of_mem x (ddGo_subset rest x m ht)

/-
  Lemmas about the capture-artifact dedup.  The indexed fold dcaStep is
  first proven to agree with the reference recursion dcaRef, and the
  behaviour of dcaRef is then characterised through the filterKey view.
-/

theorem bkey_mergeAttsMsg (m : Message) (a : List String) :
    bkey (mergeAttsMsg m a) = bkey m := rfl

theorem findKeyIdx_none_iff (k : String × String × String) (l : List Message) :
    findKeyIdx k l = none ↔ ∀ m ∈ l, bkey m ≠ k := by
  induction l with
  | nil => simp [findKeyIdx]
  | cons m rest ih =>
    by_cases h : bkey m = k
    · simp [findKeyIdx, h]
    · simp [findKeyIdx, h, ih]

theorem findKeyIdx_some_decomp (k : String × String × String) (l : List Message) :
    ∀ i, findKeyIdx k l = some i →
      ∃ l₁ x l₂, l = l₁ ++ x :: l₂ ∧ l₁.length = i ∧ bkey x = k ∧
        ∀ y ∈ l₁, bkey y ≠ k := by
  induction l with
  | nil => intro i h; simp [findKeyIdx] at h
  | cons m rest ih =>
    intro i h
    by_cases hk : bkey m = k
    · rw [findKeyIdx, if_pos hk] at h
      have hi : i = 0 := by injection h with h2; exact h2.symm
      exact ⟨[], m, rest, rfl, by simp [hi], hk, by simp⟩
    · rw [findKeyIdx, if_neg hk] at h
      cases hr : findKeyIdx k rest with
      | none => rw [hr] at h; simp at h
      | some j =>
        rw [hr] at h
        simp only [Option.map_some', Option.some.injEq] at h
        obtain ⟨l₁, x, l₂, heq, hlen, hx, hall⟩ := ih j hr
        refine ⟨m :: l₁, x, l₂, by rw [heq]; rfl, by simp [hlen, ← h], hx, ?_⟩
        intro y hy
        cases List.mem_cons.mp hy with
        | inl he => exact he ▸ hk
        | inr ht => exact hall y ht

theorem findKeyIdx_decomp_eq (k : String × String × String) (l₁ : List Message)
    (x : Message) (l₂ : List Message) (hx : bkey x = k)
    (hall : ∀ y ∈ l₁, bkey y ≠ k) :
    findKeyIdx k (l₁ ++ x :: l₂) = some l₁.length := by
  induction l₁ with
  | nil => simp [findKeyIdx, hx]
  | cons y ys ih =>
    have hy : bkey y ≠ k := hall y (List.mem_cons_self y ys)
    have := ih (fun z hz => hall z (List.mem_cons_of_mem y hz))
    simp [findKeyIdx, hy, this]

theorem modifyAt_decomp (l₁ : List Message) (x : Message) (l₂ : List Message)
    (f : Message → Message) :
    modifyAt (l₁ ++ x :: l₂) l₁.length f = l₁ ++ f x :: l₂ := by
  induction l₁ with
  | nil => rfl
  | cons y ys ih => simp only [List.cons_append, List.length_cons, modifyAt, List.append_eq, ih]

theorem findKeyIdx_modifyAt (k : String × String × String) (f : Message → Message)
    (hf : ∀ m, bkey (f m) = bkey m) (l : List Message) :
    ∀ i, findKeyIdx k (modifyAt l i f) = findKeyIdx k l := by
  induction l with
  | nil => intro i; rfl
  | cons m rest ih =>
    intro i
    cases i with
    | zero => simp [modifyAt, findKeyIdx, hf m]
    | succ n => simp [modifyAt, findKeyIdx, ih n]

theorem findKeyIdx_append_of_some (k : String × String × String) (l : List Message)
    (m : Message) (i : Nat) (h : findKeyIdx k l = some i) :
    findKeyIdx k (l ++ [m]) = some i := by
  induction l generalizing i with
  | nil => simp [findKeyIdx] at h
  | cons y ys ih =>
    by_cases hy : bkey y = k
    · rw [findKeyIdx, if_pos hy] at h
      rw [List.cons_append, findKeyIdx, if_pos hy]
      exact h
    · rw [findKeyIdx, if_neg hy] at h
      cases hr : findKeyIdx k ys with
      | none => rw [hr] at h; simp at h
      | some j =>
        rw [hr] at h
        simp only [Option.map_some', Option.some.injEq] at h
        rw [List.cons_append, findKeyIdx, if_neg hy, ih j hr]
        simp [h]

theorem findKeyIdx_append_of_none (k : String × String × String) (l : List Message)
    (m : Message) (h : findKeyIdx k l = none) :
    findKeyIdx k (l ++ [m]) = if bkey m = k then some l.length else none := by
  induction l with
  | nil =>
    simp only [List.nil_append, findKeyIdx, List.length_nil]
    by_cases hm : bkey m = k <;> simp [hm]
  | cons y ys ih =>
    by_cases hy : bkey y = k
    · rw [findKeyIdx, if_pos hy] at h; simp at h
    · rw [findKeyIdx, if_neg hy] at h
      have hys : findKeyIdx k ys = none := by
        cases hr : findKeyIdx k ys with
        | none => rfl
        | some j => rw [hr] at h; simp at h
      rw [List.cons_append, findKeyIdx, if_neg hy, ih hys]
      by_cases hm : bkey m = k <;> simp [hm]

theorem foldl_dcaStep_out (l : List Message) :
    ∀ st : DCAState, (∀ k, lookupIdx k st.seen = findKeyIdx k st.out) →
      (List.foldl dcaStep st l).out = dcaRef st.out l := by
  induction l with
  | nil => intro st _; rfl
  | cons m ms ih =>
    intro st h
    rw [List.foldl_cons]
    cases hl : lookupIdx (bkey m) st.seen with
    | some i =>
      have hf : findKeyIdx (bkey m) st.out = some i := by rw [← h]; exact hl
      have hstep : dcaStep st m =
          { st with out := modifyAt st.out i (fun prev => mergeAttsMsg prev m.attachments) } := by
        simp [dcaStep, hl]
      rw [hstep]
      have hinv : ∀ k,
          lookupIdx k st.seen =
            findKeyIdx k (modifyAt st.out i (fun prev => mergeAttsMsg prev m.attachments)) := by
        intro k
        rw [findKeyIdx_modifyAt k _ (fun mm => bkey_mergeAttsMsg mm m.attachments) st.out i]
        exact h k
      rw [ih _ hinv]
      simp [dcaRef, hf]
    | none =>
      have hf : findKeyIdx (bkey m) st.out = none := by rw [← h]; exact hl
      have hstep : dcaStep st m =
          { out := st.out ++ [m], seen := (bkey m, st.out.length) :: st.seen } := by
        simp [dcaStep, hl]
      rw [hstep]
      have hinv : ∀ k,
          lookupIdx k ((bkey m, st.out.length) :: st.seen) = findKeyIdx k (st.out ++ [m]) := by
        intro k
        by_cases hk : bkey m = k
        · subst hk
          rw [lookupIdx, if_pos rfl, findKeyIdx_append_of_none _ _ _ hf, if_pos rfl]
        · rw [lookupIdx, if_neg hk]
          cases hr : findKeyIdx k st.out with
          | none =>
            rw [findKeyIdx_append_of_none _ _ _ hr, if_neg hk, h k, hr]
          | some j =>
            rw [findKeyIdx_append_of_some _ _ _ _ hr, h k, hr]
      rw [ih _ hinv]
      simp [dcaRef, hf]

theorem dca_eq_dcaRef (l : List Message) :
    dedupe_capture_artifacts l = dcaRef [] l := by
  unfold dedupe_capture_artifacts
  exact foldl_dcaStep_out l ⟨[], []⟩ (fun _ => rfl)

theorem dcaRef_append (xs ys : List Message) :
    ∀ pre, dcaRef pre (xs ++ ys) = dcaRef (dcaRef pre xs) ys := by
  induction xs with
  | nil => intro pre; rfl
  | cons m ms ih =>
    intro pre
    rw [List.cons_append]
    cases hf : findKeyIdx (bkey m) pre with
    | some i => simp only [dcaRef, hf]; exact ih _
    | none => simp only [dcaRef, hf]; exact ih _

theorem filterKey_append (k : String × String × String) (a b : List Message) :
    filterKey k (a ++ b) = filterKey k a ++ filterKey k b := by
  induction a with
  | nil => rfl
  | cons m ms ih =>
    by_cases h : bkey m = k
    · simp only [List.cons_append, filterKey, if_pos h, List.append_eq, ih]
    · simp only [List.cons_append, filterKey, if_neg h, List.append_eq, ih]

theorem filterKey_eq_nil_iff (k : String × String × String) (l : List Message) :
    filterKey k l = [] ↔ ∀ m ∈ l, bkey m ≠ k := by
  induction l with
  | nil => simp [filterKey]
  | cons m ms ih =>
    by_cases h : bkey m = k
    · simp [filterKey, h]
    · simp [filterKey, h, ih]

theorem dcaRef_filterKey_frozen (K : String × String × String) (l : List Message) :
    ∀ pre, (∀ m ∈ l, bkey m ≠ K) → filterKey K (dcaRef pre l) = filterKey K pre := by
  induction l with
  | nil => intro pre _; rfl
  | cons m ms ih =>
    intro pre hall
    have hm : bkey m ≠ K := hall m (List.mem_cons_self m ms)
    have htail : ∀ x ∈ ms, bkey x ≠ K := fun x hx => hall x (List.mem_cons_of_mem m hx)
    cases hf : findKeyIdx (bkey m) pre with
    | some i =>
      simp only [dcaRef, hf]
      obtain ⟨l₁, x, l₂, heq, hlen, hx, _⟩ := findKeyIdx_some_decomp (bkey m) pre i hf
      have hxK : bkey x ≠ K := by rw [hx]; exact hm
      rw [heq, ← hlen, modifyAt_decomp, ih _ htail]
      rw [filterKey_append, filterKey_append]
      congr 1
      simp only [filterKey, bkey_mergeAttsMsg, if_neg hxK]
    | none =>
      simp only [dcaRef, hf]
      rw [ih _ htail, filterKey_append]
      simp [filterKey, hm]

theorem filterKey_eq_singleton_decomp (K : String × String × String)
    (l : List Message) (x : Message) (h : filterKey K l = [x]) :
    ∃ l₁ l₂, l = l₁ ++ x :: l₂ ∧ bkey x = K ∧ (∀ y ∈ l₁, bkey y ≠ K) ∧
      ∀ y ∈ l₂, bkey y ≠ K := by
  induction l with
  | nil => simp [filterKey] at h
  | cons m ms ih =>
    by_cases hk : bkey m = K
    · rw [filterKey, if_pos hk] at h
      obtain ⟨hmx, hnil⟩ := List.cons_eq_cons.mp h
      subst hmx
      exact ⟨[], ms, rfl, hk, by simp, (filterKey_eq_nil_iff K ms).mp hnil⟩
    · rw [filterKey, if_neg hk] at h
      obtain ⟨l₁, l₂, heq, hx, h1, h2⟩ := ih h
      refine ⟨m :: l₁, l₂, by rw [heq]; rfl, hx, ?_, h2⟩
      intro y hy
      cases List.mem_cons.mp hy with
      | inl he => exact he ▸ hk
      | inr ht => exact h1 y ht

/-- Reaching the first occurrence of a key: after processing a prefix free
of the key and the first message carrying it, the output holds exactly that
message under the key and the recursion continues past it. -/
theorem dcaRef_first_occurrence (K : String × String × String) (l₁ : List Message)
    (m₁ : Message) (rest : List Message) (hK : bkey m₁ = K)
    (hl₁ : ∀ y ∈ l₁, bkey y ≠ K) :
    dcaRef [] (l₁ ++ m₁ :: rest) = dcaRef (dcaRef [] l₁ ++ [m₁]) rest ∧
      filterKey K (dcaRef [] l₁ ++ [m₁]) = filterKey K [m₁] := by
  have h1 : filterKey K (dcaRef [] l₁) = [] := by
    rw [dcaRef_filterKey_frozen K l₁ [] hl₁]; rfl
  have hnone : findKeyIdx K (dcaRef [] l₁) = none :=
    (findKeyIdx_none_iff K _).mpr ((filterKey_eq_nil_iff K _).mp h1)
  constructor
  · rw [dcaRef_append]
    have : findKeyIdx (bkey m₁) (dcaRef [] l₁) = none := by rw [hK]; exact hnone
    simp only [dcaRef, this]
  · rw [filterKey_append, h1, List.nil_append]

theorem map_bkey_modifyAt (f : Message → Message) (hf : ∀ m, bkey (f m) = bkey m)
    (l : List Message) : ∀ i, (modifyAt l i f).map bkey = l.map bkey := by
  induction l with
  | nil => intro i; rfl
  | cons m rest ih =>
    intro i
    cases i with
    | zero => simp [modifyAt, hf m]
    | succ n => simp [modifyAt, ih n]

theorem dcaRef_keys_nodup (l : List Message) :
    ∀ pre, (pre.map bkey).Nodup → ((dcaRef pre l).map bkey).Nodup := by
  induction l with
  | nil => intro pre h; exact h
  | cons m ms ih =>
    intro pre hnd
    cases hf : findKeyIdx (bkey m) pre with
    | some i =>
      simp only [dcaRef, hf]
      apply ih
      rw [map_bkey_modifyAt _ (fun mm => bkey_mergeAttsMsg mm m.attachments) pre i]
      exact hnd
    | none =>
      simp only [dcaRef, hf]
      apply ih
      rw [List.map_append, List.nodup_append]
      refine ⟨hnd, List.nodup_singleton _, ?_⟩
      intro a ha hb
      simp only [List.map_cons, List.map_nil, List.mem_singleton] at hb
      subst hb
      obtain ⟨p, hp, he⟩ := List.mem_map.mp ha
      exact (findKeyIdx_none_iff _ _).mp hf p hp he

theorem dcaRef_of_fresh (l : List Message) :
    ∀ pre, (∀ m ∈ l, ∀ p ∈ pre, bkey p ≠ bkey m) → (l.map bkey).Nodup →
      dcaRef pre l = pre ++ l := by
  induction l with
  | nil => intro pre _ _; simp [dcaRef]
  | cons m ms ih =>
    intro pre hfresh hnd
    have hmap : (bkey m :: ms.map bkey).Nodup := by
      rw [← List.map_cons]; exact hnd
    have hf : findKeyIdx (bkey m) pre = none :=
      (findKeyIdx_none_iff _ _).mpr fun p hp => hfresh m (List.mem_cons_self m ms) p hp
    have h1 : ∀ x ∈ ms, ∀ p ∈ pre ++ [m], bkey p ≠ bkey x := by
      intro x hx p hp
      cases List.mem_append.mp hp with
      | inl h => exact hfresh x (List.mem_cons_of_mem m hx) p h
      | inr h =>
        have hpm : p = m := by simpa using h
        subst hpm
        intro hc
        apply (List.nodup_cons.mp hmap).1
        rw [hc]
        exact List.mem_map_of_mem bkey hx
    have h2 : (ms.map bkey).Nodup := (List.nodup_cons.mp hmap).2
    simp only [dcaRef, hf]
    rw [ih (pre ++ [m]) h1 h2]
    simp

theorem mergeAttsMsg_nonEmpty (m : Message) (a : List String) (h : nonEmptyM m) :
    nonEmptyM (mergeAttsMsg m a) := by
  cases h with
  | inl hc => exact Or.inl hc
  | inr ha => exact Or.inr (addNewUrls_ne_nil a m.attachments ha)

theorem dcaRef_mem_nonEmpty (l : List Message) :
    ∀ pre, (∀ p ∈ pre, nonEmptyM p) → (∀ x ∈ l, nonEmptyM x) →
      ∀ m ∈ dcaRef pre l, nonEmptyM m := by
  induction l with
  | nil => intro pre hpre _ m hm; exact hpre m hm
  | cons x xs ih =>
    intro pre hpre hall m hm
    have htail : ∀ y ∈ xs, nonEmptyM y := fun y hy => hall y (List.mem_cons_of_mem x hy)
    cases hf : findKeyIdx (bkey x) pre with
    | some i =>
      simp only [dcaRef, hf] at hm
      obtain ⟨l₁, y, l₂, heq, hlen, _, _⟩ := findKeyIdx_some_decomp (bkey x) pre i hf
      rw [heq, ← hlen, modifyAt_decomp] at hm
      refine ih _ ?_ htail m hm
      intro p hp
      cases List.mem_append.mp hp with
      | inl h => exact hpre p (heq ▸ List.mem_append_left _ h)
      | inr h =>
        cases List.mem_cons.mp h with
        | inl he =>
          subst he
          refine mergeAttsMsg_nonEmpty y x.attachments ?_
          exact hpre y (heq ▸ List.mem_append_right _ (List.mem_cons_self y l₂))
        | inr ht => exact hpre p (heq ▸ List.mem_append_right _ (List.mem_cons_of_mem y ht))
    | none =>
      simp only [dcaRef, hf] at hm
      refine ih _ ?_ htail m hm
      intro p hp
      cases List.mem_append.mp hp with
      | inl h => exact hpre p h
      | inr h =>
        have hpx : p = x := by simpa using h
        exact hpx ▸ hall x (List.mem_cons_self x xs)

/-
  The Enter placeholder translation: the replacement is occurrence-blind,
  so no occurrence of the pattern survives it, wherever it sits in a word.
-/

theorem pyReplaceFuel_prefix_transfer (fuel : Nat) :
    ∀ (cs s : List Char), (∀ c ∈ s, c ≠ '\n') →
      s <+: pyReplaceFuel "Enter".toList ['\n'] fuel cs → s <+: cs := by
  induction fuel with
  | zero =>
    intro cs s _ hp
    cases cs with
    | nil => simpa [pyReplaceFuel] using hp
    | cons c cs2 => simpa [pyReplaceFuel] using hp
  | succ fuel ih =>
    intro cs s hnl hp
    cases cs with
    | nil => simpa [pyReplaceFuel] using hp
    | cons c cs2 =>
      by_cases hm : "Enter".toList ≠ [] ∧ "Enter".toList <+: (c :: cs2)
      · rw [pyReplaceFuel, if_pos hm] at hp
        cases s with
        | nil => exact List.nil_prefix
        | cons s0 s1 =>
          have : s0 = '\n' := (List.cons_prefix_cons.mp hp).1
          exact absurd this (hnl s0 (List.mem_cons_self s0 s1))
      · rw [pyReplaceFuel, if_neg hm] at hp
        cases s with
        | nil => exact List.nil_prefix
        | cons s0 s1 =>
          obtain ⟨h0, h1⟩ := List.cons_prefix_cons.mp hp
          exact List.cons_prefix_cons.mpr
            ⟨h0, ih cs2 s1 (fun d hd => hnl d (List.mem_cons_of_mem s0 hd)) h1⟩

theorem countOccFuel_pyReplaceFuel (fuel : Nat) :
    ∀ (cs : List Char), cs.length ≤ fuel → ∀ n,
      countOccFuel "Enter".toList n (pyReplaceFuel "Enter".toList ['\n'] fuel cs) = 0 := by
  induction fuel with
  | zero =>
    intro cs hlen n
    have : cs = [] := List.eq_nil_of_length_eq_zero (Nat.le_zero.mp hlen)
    subst this
    cases n <;> rfl
  | succ fuel ih =>
    intro cs hlen n
    cases cs with
    | nil => cases n <;> rfl
    | cons c cs2 =>
      by_cases hm : "Enter".toList ≠ [] ∧ "Enter".toList <+: (c :: cs2)
      · rw [pyReplaceFuel, if_pos hm]
        cases n with
        | zero => rfl
        | succ k =>
          have hnp : ¬ ("Enter".toList ≠ [] ∧ "Enter".toList <+:
              ('\n' :: pyReplaceFuel "Enter".toList ['\n'] fuel
                (cs2.drop ("Enter".toList.length - 1)))) := by
            rintro ⟨-, hpre⟩
            have : ('E' : Char) = '\n' := (List.cons_prefix_cons.mp hpre).1
            simp at this
          rw [List.singleton_append, countOccFuel, if_neg hnp]
          refine ih (cs2.drop ("Enter".toList.length - 1)) ?_ k
          have hdrop := List.length_drop ("Enter".toList.length - 1) cs2
          have h5 : "Enter".toList.length = 5 := rfl
          simp only [List.length_cons] at hlen
          omega
      · rw [pyReplaceFuel, if_neg hm]
        cases n with
        | zero => rfl
        | succ k =>
          have hnp : ¬ ("Enter".toList ≠ [] ∧ "Enter".toList <+:
              (c :: pyReplaceFuel "Enter".toList ['\n'] fuel cs2)) := by
            rintro ⟨-, hpre⟩
            apply hm
            refine ⟨by decide, ?_⟩
            have hEnter : "Enter".toList = 'E' :: "nter".toList := rfl
            rw [hEnter] at hpre ⊢
            obtain ⟨h0, h1⟩ := List.cons_prefix_cons.mp hpre
            refine List.cons_prefix_cons.mpr ⟨h0, ?_⟩
            refine pyReplaceFuel_prefix_transfer fuel cs2 "nter".toList ?_ h1
            decide
          rw [countOccFuel, if_neg hnp]
          refine ih cs2 ?_ k
          simp only [List.length_cons] at hlen
          omega

theorem countOcc_pyReplaceL_enter (l : List Char) :
    countOcc "Enter".toList (pyReplaceL "Enter".toList ['\n'] l) = 0 := by
  unfold countOcc pyReplaceL
  exact countOccFuel_pyReplaceFuel l.length l (Nat.le_refl _) _

/-
  The shape of clean_entry in terms of the derived vocabulary.
-/

theorem foldl_tsUpd_of_no_timestamp (ls : List String) :
    ∀ ts, (∀ l ∈ ls, is_timestamp l = false) → ls.foldl tsUpd ts = ts := by
  induction ls with
  | nil => intro ts _; rfl
  | cons l rest ih =>
    intro ts hall
    rw [List.foldl_cons]
    have : tsUpd ts l = ts := by
      simp [tsUpd, hall l (List.mem_cons_self l rest)]
    rw [this]
    exact ih ts fun x hx => hall x (List.mem_cons_of_mem l hx)

theorem clean_entry_eq (e : RawEntry) (ts : Option String) (ns : String → Bool) :
    clean_entry e ts ns =
      ((entryLines e).foldl tsUpd ts,
        if retainedLines e = [] ∧ filter_attachments e.media_urls ns = [] then none
        else some
          { timestamp := ((entryLines e).foldl tsUpd ts).getD "Unknown Time"
            sender := if e.sender = "Partner" then PARTNER_NAME else e.sender
            content := joinNL (retainedLines e)
            type := if retainedLines e = [] then "media" else "text"
            attachments := filter_attachments e.media_urls ns
            sourceBatch := e.batch
            sourcePart := e.part
            sourceIndex := e.index }) := by
  unfold clean_entry retainedLines entryLines
  rw [cleanLinesGo_eq]
  by_cases hc : List.filter lineIsContent (procLines (pySplitlines (pyReplace e.content "Enter" "\n"))) = [] ∧
      filter_attachments e.media_urls ns = []
  · rw [if_pos hc, if_pos hc]
  · rw [if_neg hc, if_neg hc]

/-
  The claims.
-/

/-- C1, counterexample: on the end-to-end scenario of the design document
(batch A = timestamp row, hello, hello; batch B = hello) the pipeline does
not produce two hello Messages — the grouper first merges the three
consecutive same-sender rows into a single block. -/
theorem C1_cex :
    ¬ (∃ m₁ m₂ : FinalMessage, run_pipeline c1rows = [m₁, m₂] ∧
      m₁.sender = PARTNER_NAME ∧ m₁.content = "hello" ∧
      m₂.sender = PARTNER_NAME ∧ m₂.content = "hello") := by
  rintro ⟨m₁, m₂, heq, -⟩
  have hlen : (run_pipeline c1rows).length = 1 := by decide
  rw [heq] at hlen
  simp at hlen

/-- C1, amended: on the end-to-end scenario the pipeline produces exactly
one Message, with sender the partner display name, timestamp taken from the
batch-A timestamp row, and content the three hello lines joined by
newlines, because group_messages merges consecutive same-sender messages
(across the batch boundary) before either dedup stage runs. -/
theorem C1_amended :
    run_pipeline c1rows =
      [⟨"18 Dec 2025, 16:19", PARTNER_NAME, "hello\nhello\nhello", "text", []⟩] := by
  decide

/-- C2, counterexample: sender Alice sends ping once in batch A and once in
batch B with nothing between; the grouper merges the two adjacent
same-sender rows, so the final output does not contain two ping messages
(it contains none). -/
theorem C2_cex :
    ¬ (2 ≤ ((run_pipeline c2rows).filter
      (fun m => decide (m.sender = "Alice" ∧ m.content = "ping"))).length) := by
  decide

/-- C2, amended: the capture-artifact dedup stage itself preserves
cross-batch repetition.  For any block list of the form
l₁ ++ m₁ :: l₂ ++ m₂ :: l₃ where m₂ repeats the sender and content of m₁
from a different source batch, and neither tracked key occurs elsewhere,
both blocks survive dedupe_capture_artifacts unchanged, as two distinct
messages (their tracked keys differ).  The earlier grouping and
consecutive-collapse stages may still merge the two occurrences when they
are adjacent, as the counterexample shows. -/
theorem C2_amended (l₁ l₂ l₃ : List Message) (m₁ m₂ : Message)
    (_hsender : m₂.sender = m₁.sender) (_hcontent : m₂.content = m₁.content)
    (hbatch : m₂.sourceBatch ≠ m₁.sourceBatch)
    (hrest : ∀ m ∈ l₁ ++ l₂ ++ l₃, bkey m ≠ bkey m₁ ∧ bkey m ≠ bkey m₂) :
    bkey m₁ ≠ bkey m₂ ∧
      filterKey (bkey m₁) (dedupe_capture_artifacts (l₁ ++ m₁ :: l₂ ++ m₂ :: l₃)) = [m₁] ∧
      filterKey (bkey m₂) (dedupe_capture_artifacts (l₁ ++ m₁ :: l₂ ++ m₂ :: l₃)) = [m₂] := by
  have hmem₁ : ∀ y ∈ l₁, y ∈ l₁ ++ l₂ ++ l₃ := fun y hy =>
    List.mem_append_left _ (List.mem_append_left _ hy)
  have hmem₂ : ∀ y ∈ l₂, y ∈ l₁ ++ l₂ ++ l₃ := fun y hy =>
    List.mem_append_left _ (List.mem_append_right _ hy)
  have hmem₃ : ∀ y ∈ l₃, y ∈ l₁ ++ l₂ ++ l₃ := fun y hy => List.mem_append_right _ hy
  have hkk : bkey m₁ ≠ bkey m₂ := fun h => hbatch (congrArg Prod.fst h).symm
  rw [dca_eq_dcaRef]
  simp only [List.append_assoc, List.cons_append]
  obtain ⟨hsplit, hfk1⟩ :=
    dcaRef_first_occurrence (bkey m₁) l₁ m₁ (l₂ ++ m₂ :: l₃) rfl
      (fun y hy => (hrest y (hmem₁ y hy)).1)
  rw [hsplit, dcaRef_append]
  have hP3K1 : filterKey (bkey m₁) (dcaRef (dcaRef [] l₁ ++ [m₁]) l₂) = [m₁] := by
    rw [dcaRef_filterKey_frozen _ l₂ _ (fun y hy => (hrest y (hmem₂ y hy)).1), hfk1]
    simp [filterKey]
  have hP2K2 : filterKey (bkey m₂) (dcaRef [] l₁ ++ [m₁]) = [] := by
    rw [filterKey_append,
      dcaRef_filterKey_frozen _ l₁ [] (fun y hy => (hrest y (hmem₁ y hy)).2)]
    simp [filterKey, hkk]
  have hP3K2 : filterKey (bkey m₂) (dcaRef (dcaRef [] l₁ ++ [m₁]) l₂) = [] := by
    rw [dcaRef_filterKey_frozen _ l₂ _ (fun y hy => (hrest y (hmem₂ y hy)).2)]
    exact hP2K2
  have hidx : findKeyIdx (bkey m₂) (dcaRef (dcaRef [] l₁ ++ [m₁]) l₂) = none :=
    (findKeyIdx_none_iff _ _).mpr ((filterKey_eq_nil_iff _ _).mp hP3K2)
  have hstep : dcaRef (dcaRef (dcaRef [] l₁ ++ [m₁]) l₂) (m₂ :: l₃) =
      dcaRef (dcaRef (dcaRef [] l₁ ++ [m₁]) l₂ ++ [m₂]) l₃ := by
    simp only [dcaRef, hidx]
  rw [hstep]
  refine ⟨hkk, ?_, ?_⟩
  · rw [dcaRef_filterKey_frozen _ l₃ _ (fun y hy => (hrest y (hmem₃ y hy)).1),
      filterKey_append, hP3K1]
    simp [filterKey, Ne.symm hkk]
  · rw [dcaRef_filterKey_frozen _ l₃ _ (fun y hy => (hrest y (hmem₃ y hy)).2),
      filterKey_append, hP3K2]
    simp [filterKey]

/-- C2, witness: the amended statement applied to the two-block list with
batches A and B. -/
theorem C2_witness :
    bkey (⟨"T", "S", "hey", "text", [], "A", 0, 0⟩ : Message) ≠
        bkey (⟨"T", "S", "hey", "text", [], "B", 0, 0⟩ : Message) ∧
      filterKey (bkey (⟨"T", "S", "hey", "text", [], "A", 0, 0⟩ : Message))
        (dedupe_capture_artifacts
          [⟨"T", "S", "hey", "text", [], "A", 0, 0⟩, ⟨"T", "S", "hey", "text", [], "B", 0, 0⟩]) =
        [⟨"T", "S", "hey", "text", [], "A", 0, 0⟩] ∧
      filterKey (bkey (⟨"T", "S", "hey", "text", [], "B", 0, 0⟩ : Message))
        (dedupe_capture_artifacts
          [⟨"T", "S", "hey", "text", [], "A", 0, 0⟩, ⟨"T", "S", "hey", "text", [], "B", 0, 0⟩]) =
        [⟨"T", "S", "hey", "text", [], "B", 0, 0⟩] :=
  C2_amended [] [] [] ⟨"T", "S", "hey", "text", [], "A", 0, 0⟩
    ⟨"T", "S", "hey", "text", [], "B", 0, 0⟩ rfl rfl (by decide) (by simp)

/-- C3, code bug: a candidate URL carrying a query string and occurring
twenty-five times in the corpus is counted into the noise set under its
query-stripped noise_key, but filter_attachments tests the query-preserving
normalize_url canon against that set, so the URL is never suppressed and
survives into the output attachments. -/
theorem C3_bug :
    url_occurrences c3rows c3url = 25 ∧
      ∃ m ∈ run_pipeline c3rows, c3url ∈ m.attachments := by
  refine ⟨by decide, ?_⟩
  decide

/-- C4, counterexample: on the alternating corpus c4rows the capture-artifact
stage drops the block separating two identical Alice blocks, so the final
output holds two adjacent messages with identical sender, content and
attachment multiset. -/
theorem C4_cex : noAdjDupF (run_pipeline c4rows) = false := by
  decide

/-- C4, amended: the no-adjacent-duplicates property holds of the output of
the consecutive-collapse stage itself; the later capture-artifact stage may
reintroduce adjacency of equal blocks by deleting a separator, as the
counterexample shows. -/
theorem C4_amended (l : List Message) : noAdjDupM (dedupe_consecutive l) = true :=
  noAdjDupM_dedupe_consecutive l

/-- C5: the capture-artifact dedup is idempotent — its output carries
pairwise distinct tracked keys, so a second run finds nothing to merge or
drop. -/
theorem C5_idempotent (l : List Message) :
    dedupe_capture_artifacts (dedupe_capture_artifacts l) = dedupe_capture_artifacts l := by
  rw [dca_eq_dcaRef, dca_eq_dcaRef]
  have hnd : ((dcaRef [] l).map bkey).Nodup := dcaRef_keys_nodup l [] (by simp)
  have h := dcaRef_of_fresh (dcaRef [] l) []
    (fun m _ p hp => absurd hp (List.not_mem_nil p)) hnd
  simpa using h

/-- C6, counterexample: sender Alice sends x twice adjacently inside batch
A; the grouper merges the pair into one block whose content is the two
lines joined, so no output message carries the original key (Alice,
normalized x) — the count of such messages is zero, not one. -/
theorem C6_cex :
    ¬ (((run_pipeline c6rows).filter
      (fun m => decide (m.sender = "Alice" ∧ norm_text m.content = norm_text "x"))).length = 1) := by
  decide

/-- C6, amended: at the capture-artifact stage, when a tracked key (source
batch, sender, normalized content) occurs exactly twice in a block list —
at m₁ and later at m₂ — exactly one block with that key survives: the first
occurrence m₁, its attachments extended by the union with m₂'s attachments
in first-seen order.  At the whole-pipeline level the property can fail
because adjacent within-batch repeats are merged by the grouper first, as
the counterexample shows. -/
theorem C6_amended (l₁ l₂ l₃ : List Message) (m₁ m₂ : Message)
    (hkey : bkey m₂ = bkey m₁)
    (hrest : ∀ m ∈ l₁ ++ l₂ ++ l₃, bkey m ≠ bkey m₁) :
    filterKey (bkey m₁) (dedupe_capture_artifacts (l₁ ++ m₁ :: l₂ ++ m₂ :: l₃)) =
      [mergeAttsMsg m₁ m₂.attachments] := by
  have hmem₁ : ∀ y ∈ l₁, y ∈ l₁ ++ l₂ ++ l₃ := fun y hy =>
    List.mem_append_left _ (List.mem_append_left _ hy)
  have hmem₂ : ∀ y ∈ l₂, y ∈ l₁ ++ l₂ ++ l₃ := fun y hy =>
    List.mem_append_left _ (List.mem_append_right _ hy)
  have hmem₃ : ∀ y ∈ l₃, y ∈ l₁ ++ l₂ ++ l₃ := fun y hy => List.mem_append_right _ hy
  rw [dca_eq_dcaRef]
  simp only [List.append_assoc, List.cons_append]
  obtain ⟨hsplit, hfk1⟩ :=
    dcaRef_first_occurrence (bkey m₁) l₁ m₁ (l₂ ++ m₂ :: l₃) rfl
      (fun y hy => hrest y (hmem₁ y hy))
  rw [hsplit, dcaRef_append]
  have hP3 : filterKey (bkey m₁) (dcaRef (dcaRef [] l₁ ++ [m₁]) l₂) = [m₁] := by
    rw [dcaRef_filterKey_frozen _ l₂ _ (fun y hy => hrest y (hmem₂ y hy)), hfk1]
    simp [filterKey]
  obtain ⟨a, b, hPeq, hbk, ha, hb⟩ := filterKey_eq_singleton_decomp _ _ _ hP3
  have hidx : findKeyIdx (bkey m₂) (dcaRef (dcaRef [] l₁ ++ [m₁]) l₂) = some a.length := by
    rw [hkey, hPeq]
    exact findKeyIdx_decomp_eq _ a m₁ b hbk ha
  have hstep : dcaRef (dcaRef (dcaRef [] l₁ ++ [m₁]) l₂) (m₂ :: l₃) =
      dcaRef (modifyAt (dcaRef (dcaRef [] l₁ ++ [m₁]) l₂) a.length
        (fun prev => mergeAttsMsg prev m₂.attachments)) l₃ := by
    simp only [dcaRef, hidx]
  rw [hstep, hPeq, modifyAt_decomp,
    dcaRef_filterKey_frozen _ l₃ _ (fun y hy => hrest y (hmem₃ y hy)),
    filterKey_append, (filterKey_eq_nil_iff _ _).mpr ha]
  rw [List.nil_append,
    show filterKey (bkey m₁) (mergeAttsMsg m₁ m₂.attachments :: b) =
      mergeAttsMsg m₁ m₂.attachments :: filterKey (bkey m₁) b from by
        simp [filterKey, bkey_mergeAttsMsg],
    (filterKey_eq_nil_iff _ _).mpr hb]

/-- C6, witness: the amended statement applied to two same-key batch-A
blocks carrying one attachment each; the survivor is the first block with
the merged attachment list. -/
theorem C6_witness :
    filterKey (bkey (⟨"T1", "S", "x", "text", ["u1"], "A", 0, 0⟩ : Message))
      (dedupe_capture_artifacts
        [⟨"T1", "S", "x", "text", ["u1"], "A", 0, 0⟩,
         ⟨"T2", "S", "x", "text", ["u2"], "A", 0, 1⟩]) =
      [mergeAttsMsg ⟨"T1", "S", "x", "text", ["u1"], "A", 0, 0⟩ ["u2"]] :=
  C6_amended [] [] [] ⟨"T1", "S", "x", "text", ["u1"], "A", 0, 0⟩
    ⟨"T2", "S", "x", "text", ["u2"], "A", 0, 1⟩ (by decide) (by simp)

/-- C7: every message emitted by the cleaner, the grouper, both dedup
stages and the final field stripping has non-empty content or non-empty
attachments; in particular the cleaner never emits a message with both
empty. -/
theorem C7_nonempty (rows : List RawEntry) (ns : String → Bool) (ts0 : Option String) :
    (∀ m ∈ clean_rows ns ts0 rows, nonEmptyM m) ∧
      (∀ m ∈ group_messages (clean_rows ns ts0 rows), nonEmptyM m) ∧
      (∀ m ∈ dedupe_consecutive (group_messages (clean_rows ns ts0 rows)), nonEmptyM m) ∧
      (∀ m ∈ dedupe_capture_artifacts
        (dedupe_consecutive (group_messages (clean_rows ns ts0 rows))), nonEmptyM m) ∧
      (∀ m ∈ strip_internal_fields (dedupe_capture_artifacts
        (dedupe_consecutive (group_messages (clean_rows ns ts0 rows)))), nonEmptyF m) := by
  have h1 : ∀ m ∈ clean_rows ns ts0 rows, nonEmptyM m :=
    clean_rows_mem_nonEmpty ns rows ts0
  have h2 := group_messages_mem_nonEmpty _ h1
  have h3 : ∀ m ∈ dedupe_consecutive (group_messages (clean_rows ns ts0 rows)), nonEmptyM m :=
    fun m hm => h2 m (dedupe_consecutive_subset _ m hm)
  have h4 : ∀ m ∈ dedupe_capture_artifacts
      (dedupe_consecutive (group_messages (clean_rows ns ts0 rows))), nonEmptyM m := by
    rw [dca_eq_dcaRef]
    exact dcaRef_mem_nonEmpty _ [] (by simp) h3
  refine ⟨h1, h2, h3, h4, ?_⟩
  intro m hm
  obtain ⟨m0, hm0, hmap⟩ := List.mem_map.mp hm
  have := h4 m0 hm0
  rw [← hmap]
  exact this

/-- C7, witness: the invariant read off at the cleaner output and at the
final output of a one-row corpus. -/
theorem C7_witness :
    nonEmptyM ⟨"Unknown Time", "Alice", "hi", "text", [], "A", 0, 0⟩ ∧
      nonEmptyF ⟨"Unknown Time", "Alice", "hi", "text", []⟩ :=
  ⟨(C7_nonempty [⟨"Alice", "hi", [], "A", 0, 0⟩] (fun _ => false) none).1 _ (by decide),
   (C7_nonempty [⟨"Alice", "hi", [], "A", 0, 0⟩] (fun _ => false) none).2.2.2.2 _ (by decide)⟩

/-- C8: clean_entry yields no Message exactly when the retained content
lines and the filtered attachments are both empty; the returned state is
the fold of the timestamp updates over the entry's classified lines (so a
timestamp label is reflected even when nothing is emitted), and an entry
whose lines match no timestamp pattern leaves the running timestamp
unchanged. -/
theorem C8_cleaner_state (e : RawEntry) (ts : Option String) (ns : String → Bool) :
    ((clean_entry e ts ns).2 = none ↔
      retainedLines e = [] ∧ filter_attachments e.media_urls ns = []) ∧
      (clean_entry e ts ns).1 = (entryLines e).foldl tsUpd ts ∧
      ((∀ l ∈ entryLines e, is_timestamp l = false) → (clean_entry e ts ns).1 = ts) := by
  have he := clean_entry_eq e ts ns
  refine ⟨?_, ?_, ?_⟩
  · rw [he]
    by_cases hc : retainedLines e = [] ∧ filter_attachments e.media_urls ns = []
    · simp [hc]
    · simp [hc]
  · rw [he]
  · intro hall
    rw [he]
    exact foldl_tsUpd_of_no_timestamp _ ts hall

/-- C8, witness: on an entry whose only line is plain content, the running
timestamp is returned unchanged. -/
theorem C8_witness :
    (clean_entry ⟨"Alice", "hello", [], "A", 0, 0⟩ (some "X") (fun _ => false)).1 =
      some "X" :=
  (C8_cleaner_state ⟨"Alice", "hello", [], "A", 0, 0⟩ (some "X") (fun _ => false)).2.2
    (by decide)

/-- C9: the grouper leaves adjacent blocks with distinct senders, and the
consecutive-duplicate collapse only ever drops a block agreeing with its
predecessor on the sender, so dedupe_consecutive is the identity on every
group_messages output. -/
theorem C9_consecutive_noop (msgs : List Message) :
    distinctAdjSenders (group_messages msgs) = true ∧
      dedupe_consecutive (group_messages msgs) = group_messages msgs := by
  have h := distinctAdjSenders_group_messages msgs
  exact ⟨h, dedupe_consecutive_of_distinctAdjSenders _ h⟩

/-- C10: the Enter placeholder translation of clean_entry replaces every
occurrence of the substring, including occurrences inside longer words: no
occurrence survives the replacement on any input, a line containing
Entertainment is split leaving the fragment tainment as a separate content
line, and a line mixing standalone and embedded occurrences loses all of
them. -/
theorem C10_enter_replacement :
    (∀ l : List Char, countOcc "Enter".toList (pyReplaceL "Enter".toList "\n".toList l) = 0) ∧
      clean_entry ⟨"Alice", "Watch Entertainment", [], "A", 0, 0⟩ none (fun _ => false) =
        (none, some ⟨"Unknown Time", "Alice", "Watch\ntainment", "text", [], "A", 0, 0⟩) ∧
      clean_entry ⟨"Alice", "EnterhiEnterEntertainment", [], "A", 0, 0⟩ none (fun _ => false) =
        (none, some ⟨"Unknown Time", "Alice", "hi\ntainment", "text", [], "A", 0, 0⟩) := by
  refine ⟨?_, by decide, by decide⟩
  intro l
  exact countOcc_pyReplaceL_enter l

end ConvFetch
